import Mathlib

/-!
Verification development for scripts/split_records.py: a script that splits a
scanned bibliography text into sequentially numbered records and extracts
author names.  The Python source is shallowly embedded: the BibItem class,
the record assembler iter_records, and the author-extraction grammar
(regular-expression matchers modelled as executable backtracking matchers
over lists of characters).
-/

namespace SplitRecords

/-! ## Character classes

The Python source matches with the regex module using Unicode classes
(\p{Lu}, \p{Ll}, \w, \s).  The bibliography processed by the script is
Russian-language text; the letter classes are modelled over the Russian
Cyrillic alphabet (А-Я, а-я, Ё, ё) and the basic Latin alphabet (A-Z, a-z),
the scripts that actually occur in the data. -/

/-- The class [0-9]: code points 48 to 57. -/
def isDigit09 (c : Char) : Bool := 48 ≤ c.toNat && c.toNat ≤ 57

/-- The class [1-9]: code points 49 to 57. -/
def isDigit19 (c : Char) : Bool := 49 ≤ c.toNat && c.toNat ≤ 57

/-- Model of \p{Lu} restricted to Cyrillic and basic Latin. -/
def isLu (c : Char) : Bool := ('А' ≤ c && c ≤ 'Я') || c = 'Ё' || ('A' ≤ c && c ≤ 'Z')

/-- Model of \p{Ll} restricted to Cyrillic and basic Latin. -/
def isLl (c : Char) : Bool := ('а' ≤ c && c ≤ 'я') || c = 'ё' || ('a' ≤ c && c ≤ 'z')

/-- Model of \s (ASCII whitespace). -/
def isSpaceCh (c : Char) : Bool := c = ' ' || c = '\t' || c = '\n' || c = '\r'

/-- Model of \w with re.U: letters, digits and underscore.
[\W\s] in the source patterns is the complement of this class (whitespace
is already a non-word character). -/
def isWordChar (c : Char) : Bool := isLu c || isLl c || isDigit09 c || c = '_'

/-! ## BibItem: the sequence-number class

Python class BibItem holds (num, suffix) where suffix is the int 0, 1 or 2
(0 = no suffix, 1 = inserted item "а", 2 = inserted item "б").  The parse
table is suffixdict = {None: 0, 'a': 1, 'а': 1, 'б': 2} (note: both the
Latin letter "a" and the Cyrillic letter "а" map to 1), and rendering uses
numtosuf = {0: '', 1: 'а', 2: 'б'} (Cyrillic only). -/

inductive Suffix where
  | plain
  | ins1
  | ins2
deriving DecidableEq

/-- The integer stored in self.suffix for each suffix kind. -/
def Suffix.rank : Suffix → Nat
  | .plain => 0
  | .ins1 => 1
  | .ins2 => 2

/-- numtosuf = {0: '', 1: 'а', 2: 'б'} as a list of characters. -/
def Suffix.renderChars : Suffix → List Char
  | .plain => []
  | .ins1 => ['а']
  | .ins2 => ['б']

structure BibItem where
  num : Nat
  suffix : Suffix
deriving DecidableEq

/-- The integer a BibItem collapses to in arithmetic: self.num + self.suffix. -/
def BibItem.collapsed (b : BibItem) : Nat := b.num + b.suffix.rank

/-! Decimal numerals: str(n) for a Python non-negative int, written with a
fuel argument so that it is structurally recursive and kernel-evaluable. -/

def digitChar (n : Nat) : Char := Char.ofNat (48 + n)

def natToDigitsAux (fuel n : Nat) : List Char :=
  match fuel with
  | 0 => []
  | fuel' + 1 =>
      if n < 10 then [digitChar n]
      else natToDigitsAux fuel' (n / 10) ++ [digitChar (n % 10)]

/-- The decimal digit characters of n (str(n) in Python). -/
def natToDigits (n : Nat) : List Char := natToDigitsAux (n + 1) n

/-- str(BibItem): ''.join([str(self.num), numtosuf[self.suffix]]). -/
def BibItem.renderChars (b : BibItem) : List Char :=
  natToDigits b.num ++ b.suffix.renderChars

def BibItem.render (b : BibItem) : String := String.mk b.renderChars

/-! Parsing: re.match(r"(?<num>[1-9][0-9]*)(?<suffix>[aаб])?$", string).
The digit run is greedy; the suffix characters are not digits, so the match
is deterministic. -/

def digitVal (c : Char) : Nat := c.toNat - 48

def digitsToNat (l : List Char) : Nat := l.foldl (fun a c => 10 * a + digitVal c) 0

/-- suffixdict = {None: 0, 'a': 1, 'а': 1, 'б': 2}; the first branch is the
Latin letter "a", the second the Cyrillic letter "а". -/
def suffixOfChar (c : Char) : Option Suffix :=
  if c = 'a' then some .ins1
  else if c = 'а' then some .ins1
  else if c = 'б' then some .ins2
  else none

/-- The '$' anchor of the token pattern (no re.MULTILINE): it matches at
the end of the input and also just before a newline that ends the input,
so a single trailing newline after the token is accepted. -/
def dollarEnd (l : List Char) : Bool :=
  match l with
  | [] => true
  | [c] => c == '\n'
  | _ => false

/-- BibItem.__init__ from a token given as a character list: digits, an
optional suffix character, then the '$' anchor (which also accepts a
single trailing newline). -/
def parseBibItemL (l : List Char) : Option BibItem :=
  match l with
  | [] => none
  | c :: cs =>
      if isDigit19 c then
        let ds := cs.takeWhile isDigit09
        let rest := cs.dropWhile isDigit09
        if dollarEnd rest then some ⟨digitsToNat (c :: ds), .plain⟩
        else
          match rest with
          | [] => none
          | c2 :: rest2 =>
              match suffixOfChar c2 with
              | some suf =>
                  if dollarEnd rest2 then some ⟨digitsToNat (c :: ds), suf⟩
                  else none
              | none => none
      else none

/-- BibItem.__init__ from a string token; none models the ValueError raised
when the token does not match the pattern. -/
def parseBibItem (s : String) : Option BibItem := parseBibItemL s.toList

/-! Python operators of BibItem on two BibItems.  Comparison compares
self.value = (self.num, self.suffix) as tuples, i.e. lexicographically;
addition and subtraction collapse both operands to num + suffix. -/

/-- BibItem.__eq__ on two BibItems: self.value == other.value. -/
def BibItem.pyEq (a b : BibItem) : Bool :=
  a.num == b.num && a.suffix.rank == b.suffix.rank

/-- BibItem.__lt__ on two BibItems: self.value < other.value
(lexicographic tuple comparison). -/
def BibItem.pyLt (a b : BibItem) : Bool :=
  a.num < b.num || (a.num == b.num && a.suffix.rank < b.suffix.rank)

/-- BibItem.__gt__ on two BibItems: self.value > other.value. -/
def BibItem.pyGtB (a b : BibItem) : Bool := BibItem.pyLt b a

/-- BibItem.__add__ on two BibItems:
self.num + other.num + self.suffix + other.suffix. -/
def BibItem.pyAdd (a b : BibItem) : Nat :=
  a.num + b.num + a.suffix.rank + b.suffix.rank

/-- BibItem.__sub__ on two BibItems:
self.num + self.suffix - other.num - other.suffix (a Python int). -/
def BibItem.pySub (a b : BibItem) : Int :=
  (a.collapsed : Int) - (b.collapsed : Int)

/-! ## The record assembler: iter_records

iter_records keeps two variables: itemno, initially the Python int 0 and
afterwards either a BibItem or (transiently, inside one loop iteration) an
int obtained by itemno += 1, and stack, the list of pending text fragments.
Between loop iterations itemno is either the int 0 it started as or a
BibItem, so the state is modelled by ItemNo below; Python ints appearing in
this role are always non-negative.  The values yielded pair either an int,
a BibItem, or (for the final yield of str(itemno)) a string with a fragment
list, modelled by RecNum. -/

inductive ItemNo where
  | pint (n : Nat)
  | bib (b : BibItem)
deriving DecidableEq

/-- The integer the itemno state collapses to in arithmetic
(a Python int is itself; a BibItem contributes num + suffix). -/
def ItemNo.collapsed : ItemNo → Nat
  | .pint n => n
  | .bib b => b.collapsed

inductive RecNum where
  | pint (n : Nat)
  | bib (b : BibItem)
  | pstr (s : String)
deriving DecidableEq

def ItemNo.toRecNum : ItemNo → RecNum
  | .pint n => .pint n
  | .bib b => .bib b

/-- str(itemno), used by the final yield. -/
def ItemNo.pyStr : ItemNo → String
  | .pint n => String.mk (natToDigits n)
  | .bib b => b.render

/-- One record as yielded by iter_records. -/
abbrev Record := RecNum × List String

/-- The local variable num: the int 0 for an unnumbered line (modelled by
none), else BibItem(string=n). -/
abbrev NumVal := Option BibItem

/-- num > itemno.  For num = 0 this is 0 > itemno, false both against a
non-negative int and against a BibItem (whose reflected __lt__ compares
num + suffix < 0).  BibItem.__gt__ against an int compares num + suffix;
against a BibItem it compares the value tuples. -/
def numGt (num : NumVal) (itemno : ItemNo) : Bool :=
  match num, itemno with
  | none, _ => false
  | some b, .pint n => n < b.collapsed
  | some b, .bib c => BibItem.pyLt c b

/-- num < itemno, with the same Python dispatch. -/
def numLt (num : NumVal) (itemno : ItemNo) : Bool :=
  match num, itemno with
  | none, .pint n => 0 < n
  | none, .bib b => 0 < b.collapsed
  | some b, .pint n => b.collapsed < n
  | some b, .bib c => BibItem.pyLt b c

/-- num == 0.  BibItem.__eq__ against an int compares num + suffix. -/
def numEq0 (num : NumVal) : Bool :=
  match num with
  | none => true
  | some b => b.collapsed == 0

/-- itemno > 0, with BibItem.__gt__ against an int comparing num + suffix. -/
def itemnoPos (itemno : ItemNo) : Bool :=
  match itemno with
  | .pint n => 0 < n
  | .bib b => 0 < b.collapsed

/-- num viewed as the collapsing integer (0 for an unnumbered line). -/
def numCollapsed (num : NumVal) : Nat :=
  match num with
  | none => 0
  | some b => b.collapsed

/-- The assignment itemno = num. -/
def numToItemNo (num : NumVal) : ItemNo :=
  match num with
  | none => .pint 0
  | some b => .bib b

/-- str(num) as used by '{}. {}'.format(num, txt). -/
def numRender (num : NumVal) : String :=
  match num with
  | none => "0"
  | some b => b.render

structure AsmState where
  itemno : ItemNo
  stack : List String
deriving DecidableEq

/-- The synthesized records of the while loop: yield (itemno, ['MISSING'])
for itemno = start, start+1, ..., start+count-1. -/
def missingRecs (start count : Nat) : List Record :=
  (List.range' start count).map (fun m => (RecNum.pint m, ["MISSING"]))

/-- One iteration of the for-loop body of iter_records: from the state and
one classified line, the new state and the records yielded during this
iteration, in order.  Mirrors the branch structure of the source:
num > itemno (with sub-cases num - itemno == 1, num - itemno > k, and the
gap loop), then num == 0 and itemno > 0, then num < itemno, else nothing. -/
def step (k : Nat) (st : AsmState) (line : NumVal × String) :
    AsmState × List Record :=
  let num := line.1
  let txt := line.2
  if numGt num st.itemno then
    let d : Int := (numCollapsed num : Int) - (st.itemno.collapsed : Int)
    if d = 1 then
      (⟨numToItemNo num, [txt]⟩,
        if st.stack.isEmpty then [] else [(st.itemno.toRecNum, st.stack)])
    else if (k : Int) < d then
      (⟨st.itemno, st.stack ++ [numRender num ++ ". " ++ txt]⟩, [])
    else
      (⟨numToItemNo num, [txt]⟩,
        (st.itemno.toRecNum, st.stack) ::
          missingRecs (st.itemno.collapsed + 1)
            (numCollapsed num - (st.itemno.collapsed + 1)))
  else if numEq0 num && itemnoPos st.itemno then
    (⟨st.itemno, st.stack ++ [txt]⟩, [])
  else if numLt num st.itemno then
    (⟨st.itemno, st.stack ++ [numRender num ++ ". " ++ txt]⟩, [])
  else
    (st, [])

/-- Run the for-loop over all lines and append the final
yield (str(itemno), stack) of the for-else clause. -/
def runAsm (k : Nat) (st : AsmState) : List (NumVal × String) → List Record
  | [] => [(RecNum.pstr st.itemno.pyStr, st.stack)]
  | l :: ls =>
      let r := step k st l
      r.2 ++ runAsm k r.1 ls

/-- iter_records on classified lines whose numbers are already parsed. -/
def iterRecordsParsed (k : Nat) (lines : List (NumVal × String)) : List Record :=
  runAsm k ⟨.pint 0, []⟩ lines

/-- Parse the number tokens of classified lines; none is the int 0 produced
by extract_number for a line with no number.  A token BibItem fails to
parse models the ValueError escaping iter_records. -/
def classifyNums (lines : List (Option String × String)) :
    Option (List (NumVal × String)) :=
  lines.mapM (fun p =>
    match p.1 with
    | none => some (none, p.2)
    | some s => (parseBibItem s).map (fun b => (some b, p.2)))

/-- iter_records from raw classified lines (number tokens still strings). -/
def iter_records (k : Nat) (lines : List (Option String × String)) :
    Option (List Record) :=
  (classifyNums lines).map (iterRecordsParsed k)

/-! ## Token shapes

Shapes of number tokens, used to state the parse/render round trip.  The
spec describes a valid token as digits optionally followed by one of the
two insertion markers; the markers the renderer produces are the Cyrillic
letters "а" and "б". -/

/-- The shape of the numeral part accepted by the token pattern: a nonzero
digit followed by digits. -/
def validDigits (l : List Char) : Bool :=
  match l with
  | [] => false
  | c :: cs => isDigit19 c && cs.all isDigit09

/-- Modelled from the spec claim wording: one or more digits, optionally
followed by one of the two insertion markers (the Cyrillic letters "а" and
"б" that the renderer produces). -/
def claimValidToken (s : String) : Bool :=
  match s.toList with
  | [] => false
  | c :: cs =>
      isDigit09 c &&
      (let rest := cs.dropWhile isDigit09
       rest == [] || rest == ['а'] || rest == ['б'])

/-- The corrected token shape on a character list: a nonzero digit, more
digits, optionally a Cyrillic insertion marker "а" or "б". -/
def validTokenL (l : List Char) : Bool :=
  match l with
  | [] => false
  | c :: cs =>
      isDigit19 c &&
      (cs.dropWhile isDigit09 == [] || cs.dropWhile isDigit09 == ['а'] ||
       cs.dropWhile isDigit09 == ['б'])

def validToken (s : String) : Bool := validTokenL s.toList

/-- Tokens of digits followed by the Latin letter "a": not of the claimed
shape, yet accepted by the parser (suffixdict maps Latin "a" to 1). -/
def latinATokenL (l : List Char) : Bool :=
  match l with
  | [] => false
  | c :: cs => isDigit19 c && cs.dropWhile isDigit09 == ['a']

def latinAToken (s : String) : Bool := latinATokenL s.toList

/-- The full acceptance set of the token pattern: a token of the valid or
Latin-a shape, optionally terminated by a single trailing newline (which
the '$' anchor ignores). -/
def acceptedTokenL (l : List Char) : Bool :=
  validTokenL l || latinATokenL l ||
    ((validTokenL l.dropLast || latinATokenL l.dropLast) &&
      l.getLast? == some '\n')

def acceptedToken (s : String) : Bool := acceptedTokenL s.toList

/-! ## Backtracking matchers for the author patterns

The author-extraction regexes (AUTHOR_NAME and the patterns built from it)
are modelled by executable backtracking matchers.  A matcher consumes a
prefix of a character list and returns every possible (capture, rest of
input) pair in the order the backtracking regex engine would try them, so
that the head of the final candidate list is the match the engine reports.
Greedy repetition lists longer candidates first; alternation lists the
left alternative's candidates first. -/

def Mtch (α : Type) : Type := List Char → List (α × List Char)

def mpure {α : Type} (a : α) : Mtch α := fun l => [(a, l)]

def mbind {α β : Type} (m : Mtch α) (f : α → Mtch β) : Mtch β :=
  fun l => (m l).flatMap (fun p => f p.1 p.2)

/-- Ordered alternation: the left alternative's candidates first. -/
def malt {α : Type} (m1 m2 : Mtch α) : Mtch α := fun l => m1 l ++ m2 l

instance : Monad Mtch where
  pure := mpure
  bind := mbind

/-- Match one character of a class. -/
def pChar (p : Char → Bool) : Mtch Char := fun l =>
  match l with
  | [] => []
  | c :: cs => if p c then [(c, cs)] else []

/-- Match a literal character sequence. -/
def pStr (s : List Char) : Mtch (List Char) := fun l =>
  if l.take s.length == s then [(s, l.drop s.length)] else []

/-- Greedy repetition of a character class with a minimum count: candidates
are the prefixes of the maximal run, longest first. -/
def pRepGreedy (p : Char → Bool) (lo : Nat) : Mtch (List Char) := fun l =>
  let run := l.takeWhile p
  (List.range (run.length + 1)).filterMap (fun i =>
    let n := run.length - i
    if lo ≤ n then some (run.take n, l.drop n) else none)

/-- Greedy repetition of a character class with counts 0..hi, longest
candidates first. -/
def pRepBounded (p : Char → Bool) (hi : Nat) : Mtch (List Char) := fun l =>
  let run := l.takeWhile p
  let m := min hi run.length
  (List.range (m + 1)).map (fun i =>
    let n := m - i
    (run.take n, l.drop n))

/-- Greedy option: try the subpattern first, then the empty match. -/
def pOpt {α : Type} (m : Mtch α) : Mtch (Option α) := fun l =>
  (m l).map (fun p => (some p.1, p.2)) ++ [(none, l)]

/-- The lookahead (?=\.). -/
def pLookDot : Mtch Unit := fun l =>
  match l with
  | '.' :: _ => [((), l)]
  | _ => []

/-- Read the current rest of the input without consuming it. -/
def pGetRest : Mtch (List Char) := fun l => [(l, l)]

/-- The tail group (?<tail>.*)$: capture everything to the end. -/
def pRest : Mtch (List Char) := fun l => [(l, [])]

/-- Greedy bounded repetition of a subpattern, most iterations first. -/
def pRepUpTo {α : Type} (n : Nat) (m : Mtch α) : Mtch (List α) :=
  match n with
  | 0 => mpure []
  | k + 1 =>
      malt (mbind m (fun a => mbind (pRepUpTo k m) (fun rest => mpure (a :: rest))))
        (mpure [])

/-- Greedy unbounded repetition (X)* with fuel, most iterations first; the
fuel is at least the input length wherever this is used, and every
iteration of the repeated subpatterns below consumes at least one
character, so the fuel never runs out on a candidate the engine would
try. -/
def pRepStar {α : Type} (m : Mtch α) (fuel : Nat) : Mtch (List α) :=
  match fuel with
  | 0 => mpure []
  | f + 1 =>
      malt (mbind m (fun a => mbind (pRepStar m f) (fun rest => mpure (a :: rest))))
        (mpure [])

/-- The class [\W\s]+ (one or more non-word characters), greedy. -/
def nonWordRun : Mtch (List Char) := pRepGreedy (fun c => !isWordChar c) 1

/-! ## The AUTHOR_NAME pattern

Direct translation of the verbose pattern AUTHOR_NAME from the source.
The named groups last, ini and real are returned as captures; the pattern
has two groups named real (the pseudonym before the initials and the
disclosure after them) and the regex module reports the last one that
matched, modelled by preferring the second capture. -/

/-- (?<last>\p{Lu}\p{Ll}+(-\p{Lu}\p{Ll}+)?) -/
def pLastName : Mtch (List Char) := do
  let c ← pChar isLu
  let ls ← pRepGreedy isLl 1
  let hy ← pOpt (do
    let _ ← pChar (fun d => d == '-')
    let c2 ← pChar isLu
    let ls2 ← pRepGreedy isLl 1
    pure ('-' :: c2 :: ls2))
  pure ([c] ++ ls ++ hy.getD [])

/-- (\s+\((?<real>\p{Lu}\p{Ll}+)\))? — the body, capturing the name. -/
def pRealShort : Mtch (List Char) := do
  let _ ← pRepGreedy isSpaceCh 1
  let _ ← pChar (fun d => d == '(')
  let c ← pChar isLu
  let ls ← pRepGreedy isLl 1
  let _ ← pChar (fun d => d == ')')
  pure ([c] ++ ls)

/-- \p{Lu}\p{Ll}{0,2}\.[\s-]?\p{Lu}\p{Ll}{0,2}\. -/
def pIniAlt1 : Mtch (List Char) := do
  let a ← pChar isLu
  let la ← pRepBounded isLl 2
  let _ ← pChar (fun d => d == '.')
  let sep ← pOpt (pChar (fun d => isSpaceCh d || d == '-'))
  let b ← pChar isLu
  let lb ← pRepBounded isLl 2
  let _ ← pChar (fun d => d == '.')
  pure ([a] ++ la ++ ['.'] ++ (match sep with | some s => [s] | none => []) ++
    [b] ++ lb ++ ['.'])

/-- \p{Lu}\p{Ll}{0,2}\. -/
def pIniAlt2 : Mtch (List Char) := do
  let a ← pChar isLu
  let la ← pRepBounded isLl 2
  let _ ← pChar (fun d => d == '.')
  pure ([a] ++ la ++ ['.'])

/-- \p{Lu}\p{Ll}+\s+\p{Lu}\p{Ll}{0,2}\. -/
def pIniAlt3 : Mtch (List Char) := do
  let a ← pChar isLu
  let la ← pRepGreedy isLl 1
  let sp ← pRepGreedy isSpaceCh 1
  let b ← pChar isLu
  let lb ← pRepBounded isLl 2
  let _ ← pChar (fun d => d == '.')
  pure ([a] ++ la ++ sp ++ [b] ++ lb ++ ['.'])

/-- \p{Lu}\p{Ll}{3,}(-\p{Lu}\p{Ll}+)?(\s+де)?(?=\.) -/
def pIniAlt4 : Mtch (List Char) := do
  let a ← pChar isLu
  let la ← pRepGreedy isLl 3
  let hy ← pOpt (do
    let _ ← pChar (fun d => d == '-')
    let c2 ← pChar isLu
    let ls2 ← pRepGreedy isLl 1
    pure ('-' :: c2 :: ls2))
  let de ← pOpt (do
    let sp ← pRepGreedy isSpaceCh 1
    let w ← pStr (['д', 'е'])
    pure (sp ++ w))
  let _ ← pLookDot
  pure ([a] ++ la ++ hy.getD [] ++ de.getD [])

/-- The four ini alternatives, in pattern order. -/
def pIni : Mtch (List Char) :=
  malt pIniAlt1 (malt pIniAlt2 (malt pIniAlt3 pIniAlt4))

/-- ( \s+(?<ini>...) | ,\s+(?<ini>братья)(?=\.) ) -/
def pIniGroup : Mtch (List Char) :=
  malt
    (do
      let _ ← pRepGreedy isSpaceCh 1
      pIni)
    (do
      let _ ← pChar (fun d => d == ',')
      let _ ← pRepGreedy isSpaceCh 1
      let w ← pStr ("братья".toList)
      let _ ← pLookDot
      pure w)

/-- \p{Lu}\p{Ll}{0,2}\.\s+ (one inner repetition of the long real form). -/
def pIniDotSp : Mtch (List Char) := do
  let a ← pChar isLu
  let la ← pRepBounded isLl 2
  let _ ← pChar (fun d => d == '.')
  let sp ← pRepGreedy isSpaceCh 1
  pure ([a] ++ la ++ ['.'] ++ sp)

/-- (\s+\((?<real>(проф\.\s+)?(\p{Lu}\p{Ll}{0,2}\.\s+){0,2}\p{Lu}\p{Ll}+)\)(?=\.))?
— the body, capturing the real group. -/
def pRealLong : Mtch (List Char) := do
  let _ ← pRepGreedy isSpaceCh 1
  let _ ← pChar (fun d => d == '(')
  let pr ← pOpt (do
    let w ← pStr ("проф.".toList)
    let sp ← pRepGreedy isSpaceCh 1
    pure (w ++ sp))
  let gs ← pRepUpTo 2 pIniDotSp
  let c ← pChar isLu
  let ls ← pRepGreedy isLl 1
  let _ ← pChar (fun d => d == ')')
  let _ ← pLookDot
  pure (pr.getD [] ++ gs.flatten ++ [c] ++ ls)

/-- The captures of one AUTHOR_NAME match. -/
structure ANCap where
  last : List Char
  ini : List Char
  realname : Option (List Char)
deriving DecidableEq

/-- The whole AUTHOR_NAME pattern. -/
def pAuthorName : Mtch ANCap := do
  let last ← pLastName
  let r1 ← pOpt pRealShort
  let ini ← pIniGroup
  let r2 ← pOpt pRealLong
  pure ⟨last, ini, match r2 with | some r => some r | none => r1⟩

/-! ## The compiled matchers of extract_author -/

/-- one_author = AUTHOR_NAME + [\W\s]+(?<tail>.*)$ under re.match: the
first full parse in backtracking order, as (captures, tail). -/
def oneAuthorM (l : List Char) : Option (ANCap × List Char) :=
  ((do
    let cap ← pAuthorName
    let _ ← nonWordRun
    let t ← pRest
    pure (cap, t) : Mtch (ANCap × List Char)) l).head?.map Prod.fst

/-- The separator (\s+и\s+|,\s+). -/
def pSepM : Mtch Unit :=
  malt
    (do
      let _ ← pRepGreedy isSpaceCh 1
      let _ ← pChar (fun d => d == 'и')
      let _ ← pRepGreedy isSpaceCh 1
      pure ())
    (do
      let _ ← pChar (fun d => d == ',')
      let _ ← pRepGreedy isSpaceCh 1
      pure ())

/-- One ((\s+и\s+|,\s+)AUTHOR_NAME) repetition. -/
def pSepAN : Mtch Unit := do
  let _ ← pSepM
  let _ ← pAuthorName
  pure ()

/-- multi_author = (?<all>AUTHOR_NAME((\s+и\s+|,\s+)AUTHOR_NAME)+)[\W\s]+
(?<tail>.*)$ under re.match, as (the all group, tail). -/
def multiAuthorM (l : List Char) : Option (List Char × List Char) :=
  ((do
    let _ ← pAuthorName
    let _ ← pSepAN
    let _ ← pRepStar pSepAN l.length
    let r ← pGetRest
    let _ ← nonWordRun
    let t ← pRest
    pure (l.take (l.length - r.length), t) : Mtch (List Char × List Char)) l).head?.map
      Prod.fst

/-- SINGLE_AUTHORS = Джамбул|Майн-Рид|Мольер|Эсхил, in order. -/
def pSingleNames : Mtch (List Char) :=
  malt (pStr ("Джамбул".toList))
    (malt (pStr ("Майн-Рид".toList))
      (malt (pStr ("Мольер".toList)) (pStr ("Эсхил".toList))))

/-- single_name_authors = (?<last>SINGLE_AUTHORS)[\W\s]+(?<tail>.*)$. -/
def singleNameM (l : List Char) : Option (List Char × List Char) :=
  ((do
    let w ← pSingleNames
    let _ ← nonWordRun
    let t ← pRest
    pure (w, t) : Mtch (List Char × List Char)) l).head?.map Prod.fst

/-- author_tag = ^\s*@NOAUTHOR@[\W\s]+(?<tail>.*)$.  The tag's first
character is not whitespace, so the leading \s* is the maximal space run
and the rest of the match is deterministic. -/
def authorTagM (l : List Char) : Option (List Char) :=
  let r := l.dropWhile isSpaceCh
  let tag := "@NOAUTHOR@".toList
  if r.take tag.length == tag then
    match r.drop tag.length with
    | [] => none
    | c :: cs =>
        if isWordChar c then none
        else some ((c :: cs).dropWhile (fun d => !isWordChar d))
  else none

/-- dash = ^[\W\s]*[—][\W\s]*(?<tail>.*)$ with re.U.  The long dash is
itself a non-word character, so the pattern matches exactly when the
maximal leading run of non-word characters contains a long dash, the
greedy engine places the dash at its last occurrence in that run, and the
second [\W\s]* then extends to the end of the same run: the tail starts at
the first word character (or is empty). -/
def dashM (l : List Char) : Option (List Char) :=
  let run := l.takeWhile (fun c => !isWordChar c)
  if run.contains '—' then some (l.dropWhile (fun c => !isWordChar c)) else none

/-! ## re.split on the separator, and format_multi_authors -/

/-- The length of a match of (?:\s+и\s+|,\s+) at the head of l, if any.
The first alternative's \s+ runs are forced (the following literal
characters are not whitespace), so no backtracking arises. -/
def matchSepAt (l : List Char) : Option Nat :=
  let sp := l.takeWhile isSpaceCh
  let alt1 :=
    if 1 ≤ sp.length then
      match l.drop sp.length with
      | 'и' :: rest =>
          let sp2 := rest.takeWhile isSpaceCh
          if 1 ≤ sp2.length then some (sp.length + 1 + sp2.length) else none
      | _ => none
    else none
  match alt1 with
  | some n => some n
  | none =>
      match l with
      | ',' :: rest =>
          let sp2 := rest.takeWhile isSpaceCh
          if 1 ≤ sp2.length then some (1 + sp2.length) else none
      | _ => none

/-- re.split scanning: try the separator at each position, leftmost match
first; matched separators are dropped and delimit the segments. -/
def splitSepsAux (fuel : Nat) (acc : List Char) (l : List Char) :
    List (List Char) :=
  match fuel with
  | 0 => [acc.reverse ++ l]
  | f + 1 =>
      match l with
      | [] => [acc.reverse]
      | c :: cs =>
          match matchSepAt l with
          | some n => acc.reverse :: splitSepsAux f [] (l.drop n)
          | none => splitSepsAux f (c :: acc) cs

def splitSeps (l : List Char) : List (List Char) :=
  splitSepsAux (l.length + 1) [] l

/-- single_author.match(author) inside format_multi_authors: the first
AUTHOR_NAME parse of the segment (a prefix match). -/
def anMatch (seg : List Char) : Option ANCap :=
  (pAuthorName seg).head?.map Prod.fst

/-- The loop body of format_multi_authors: render each segment as
"last, ini", or raise ValueError at the first segment with no match. -/
def fmtSegs : List (List Char) → Except String (List String)
  | [] => .ok []
  | seg :: rest =>
      match anMatch seg with
      | some cap =>
          match fmtSegs rest with
          | .ok out => .ok ((String.mk cap.last ++ ", " ++ String.mk cap.ini) :: out)
          | .error e => .error e
      | none => .error ("Unrecognized author in an author list: " ++ String.mk seg)

/-- if not authors.endswith('.'): authors = authors + '.' -/
def withDot (s : String) : String := if s.endsWith "." then s else s ++ "."

def format_multi_authors (authors : String) : Except String String :=
  match fmtSegs (splitSeps (withDot authors).toList) with
  | .ok out => .ok (String.intercalate ("; ") out)
  | .error e => .error e

/-! ## extract_author -/

/-- The author produced by the dash branch from the carried-over prev. -/
def dashAuthor (prev : Option String) : String :=
  match prev with
  | none => "ERRAUTHOR"
  | some p => if p = "NOAUTHOR" then "ERRAUTHOR" else p

/-- extract_author(num, txt, prev): the if/elif chain over hasmulti,
hasone, hasdash, hassingle, hastag, with the ValueError of
format_multi_authors propagating to the caller.  Returns
(author, (num, author, tail)). -/
def extract_author (num : String) (txt : String) (prev : Option String) :
    Except String (String × (String × String × String)) :=
  let l := txt.toList
  match multiAuthorM l with
  | some at1 =>
      match format_multi_authors (String.mk at1.1) with
      | .ok author => .ok (author, (num, author, String.mk at1.2))
      | .error e => .error e
  | none =>
  match oneAuthorM l with
  | some ct =>
      let base := String.mk ct.1.last ++ ", " ++ String.mk ct.1.ini
      let author :=
        match ct.1.realname with
        | some r => base ++ " [" ++ String.mk r ++ "]"
        | none => base
      .ok (author, (num, author, String.mk ct.2))
  | none =>
  match dashM l with
  | some tail => .ok (dashAuthor prev, (num, dashAuthor prev, String.mk tail))
  | none =>
  match singleNameM l with
  | some lt1 => .ok (String.mk lt1.1, (num, String.mk lt1.1, String.mk lt1.2))
  | none =>
  match authorTagM l with
  | some tail => .ok ("NOAUTHOR", (num, "NOAUTHOR", String.mk tail))
  | none => .ok ("NOAUTHOR", (num, "NOAUTHOR", txt))

/-- The threading of the previous author through successive calls, as the
main loop does: author, row = extract_author(num, txt, author).  Returns
the author designation of each record in order. -/
def extractAuthorsChain (prev : Option String) :
    List String → Except String (List String)
  | [] => .ok []
  | t :: ts =>
      match extract_author ("") t prev with
      | .error e => .error e
      | .ok ar =>
          match extractAuthorsChain (some ar.1) ts with
          | .ok outs => .ok (ar.1 :: outs)
          | .error e => .error e

/-! ## Lemmas about decimal numerals -/

theorem digitChar_isDigit09 {n : Nat} (h : n < 10) :
    isDigit09 (digitChar n) = true := by
  interval_cases n <;> decide

theorem digitChar_isDigit19 {n : Nat} (h1 : 1 ≤ n) (h : n < 10) :
    isDigit19 (digitChar n) = true := by
  interval_cases n <;> simp_all <;> decide

theorem digitVal_digitChar {n : Nat} (h : n < 10) :
    digitVal (digitChar n) = n := by
  interval_cases n <;> decide

theorem digitChar_digitVal {c : Char} (h : isDigit09 c = true) :
    digitChar (digitVal c) = c := by
  have h48 : 48 ≤ c.toNat := by
    simp only [isDigit09, Bool.and_eq_true, decide_eq_true_eq] at h
    exact h.1
  unfold digitChar digitVal
  rw [show 48 + (c.toNat - 48) = c.toNat by omega]
  exact Char.ofNat_toNat c

theorem natToDigitsAux_congr :
    ∀ (n f1 f2 : Nat), n < f1 → n < f2 →
      natToDigitsAux f1 n = natToDigitsAux f2 n := by
  intro n
  induction n using Nat.strong_induction_on with
  | _ n ih =>
    intro f1 f2 h1 h2
    cases f1 with
    | zero => omega
    | succ f1' =>
      cases f2 with
      | zero => omega
      | succ f2' =>
        simp only [natToDigitsAux]
        by_cases hn : n < 10
        · simp [hn]
        · have hd : n / 10 < n := Nat.div_lt_self (by omega) (by omega)
          simp only [hn, if_false]
          rw [ih (n / 10) hd f1' f2' (by omega) (by omega)]

theorem natToDigits_small {n : Nat} (h : n < 10) :
    natToDigits n = [digitChar n] := by
  unfold natToDigits natToDigitsAux
  simp [h]

theorem natToDigits_large {n : Nat} (h : 10 ≤ n) :
    natToDigits n = natToDigits (n / 10) ++ [digitChar (n % 10)] := by
  have h1 : ¬ n < 10 := by omega
  show natToDigitsAux (n + 1) n = _
  simp only [natToDigitsAux, h1, if_false]
  rw [natToDigitsAux_congr (n / 10) n (n / 10 + 1)
        (Nat.div_lt_self (by omega) (by omega)) (Nat.lt_succ_self _)]
  rfl

theorem natToDigits_all_digits (n : Nat) :
    (natToDigits n).all isDigit09 = true := by
  induction n using Nat.strong_induction_on with
  | _ n ih =>
    by_cases h : n < 10
    · rw [natToDigits_small h]
      simp [digitChar_isDigit09 h]
    · rw [natToDigits_large (by omega), List.all_append]
      have hd : n / 10 < n := Nat.div_lt_self (by omega) (by omega)
      simp [ih _ hd, digitChar_isDigit09 (Nat.mod_lt _ (by omega))]

theorem natToDigits_valid {n : Nat} (h : 1 ≤ n) :
    validDigits (natToDigits n) = true := by
  induction n using Nat.strong_induction_on with
  | _ n ih =>
    by_cases h10 : n < 10
    · rw [natToDigits_small h10]
      simp [validDigits, digitChar_isDigit19 h h10]
    · have hd : n / 10 < n := Nat.div_lt_self (by omega) (by omega)
      have hd1 : 1 ≤ n / 10 := by
        have := Nat.div_le_div_right (c := 10) (show 10 ≤ n by omega)
        omega
      have hv := ih _ hd hd1
      rw [natToDigits_large (by omega)]
      cases hh : natToDigits (n / 10) with
      | nil => rw [hh] at hv; simp [validDigits] at hv
      | cons c cs =>
        rw [hh] at hv
        rw [List.cons_append]
        simp only [validDigits, Bool.and_eq_true] at hv ⊢
        refine ⟨hv.1, ?_⟩
        rw [List.all_append]
        simp [hv.2, digitChar_isDigit09 (Nat.mod_lt _ (show 0 < 10 by omega))]

theorem digitsToNat_append_one (l : List Char) (c : Char) :
    digitsToNat (l ++ [c]) = 10 * digitsToNat l + digitVal c := by
  unfold digitsToNat
  rw [List.foldl_append]
  rfl

theorem digitsToNat_natToDigits (n : Nat) :
    digitsToNat (natToDigits n) = n := by
  induction n using Nat.strong_induction_on with
  | _ n ih =>
    by_cases h : n < 10
    · rw [natToDigits_small h]
      simp [digitsToNat, digitVal_digitChar h]
    · rw [natToDigits_large (by omega), digitsToNat_append_one,
          ih _ (Nat.div_lt_self (by omega) (by omega)),
          digitVal_digitChar (Nat.mod_lt _ (by omega))]
      omega

theorem foldl_digits_pos (l : List Char) (a : Nat) (h : 1 ≤ a) :
    1 ≤ List.foldl (fun a c => 10 * a + digitVal c) a l := by
  induction l generalizing a with
  | nil => simpa using h
  | cons c cs ih =>
    rw [List.foldl_cons]
    exact ih (10 * a + digitVal c) (by omega)

theorem validDigits_pos {l : List Char} (h : validDigits l = true) :
    1 ≤ digitsToNat l := by
  match l with
  | [] => simp [validDigits] at h
  | c :: cs =>
    simp only [validDigits, Bool.and_eq_true] at h
    have h19 : 1 ≤ digitVal c := by
      have := h.1
      simp only [isDigit19, Bool.and_eq_true, decide_eq_true_eq] at this
      unfold digitVal
      omega
    unfold digitsToNat
    rw [List.foldl_cons]
    exact foldl_digits_pos _ _ (by omega)

theorem digitVal_lt_ten {c : Char} (h : isDigit09 c = true) :
    digitVal c < 10 := by
  simp only [isDigit09, Bool.and_eq_true, decide_eq_true_eq] at h
  unfold digitVal
  omega

theorem natToDigits_digitsToNat {l : List Char} (h : validDigits l = true) :
    natToDigits (digitsToNat l) = l := by
  induction l using List.reverseRecOn with
  | nil => simp [validDigits] at h
  | append_singleton l c ihl =>
    cases l with
    | nil =>
      simp only [validDigits, List.nil_append, List.all_nil,
        Bool.and_true] at h
      have h09 : isDigit09 c = true := by
        simp only [isDigit09, isDigit19, Bool.and_eq_true,
          decide_eq_true_eq] at h ⊢
        omega
      have hv : digitVal c < 10 := digitVal_lt_ten h09
      simp only [List.nil_append]
      rw [show digitsToNat [c] = digitVal c by
            simp [digitsToNat]]
      rw [natToDigits_small hv, digitChar_digitVal h09]
    | cons d ds =>
      have hvl : validDigits (d :: ds) = true := by
        simp only [validDigits, List.cons_append, Bool.and_eq_true,
          List.all_append, List.all_cons, List.all_nil] at h ⊢
        exact ⟨h.1, h.2.1⟩
      have h09 : isDigit09 c = true := by
        simp only [validDigits, List.cons_append, Bool.and_eq_true,
          List.all_append, List.all_cons, List.all_nil, Bool.and_true] at h
        exact h.2.2
      have hm : 1 ≤ digitsToNat (d :: ds) := validDigits_pos hvl
      have hv : digitVal c < 10 := digitVal_lt_ten h09
      rw [digitsToNat_append_one]
      have h10 : 10 ≤ 10 * digitsToNat (d :: ds) + digitVal c := by omega
      rw [natToDigits_large h10]
      have hdiv : (10 * digitsToNat (d :: ds) + digitVal c) / 10 =
          digitsToNat (d :: ds) := by omega
      have hmod : (10 * digitsToNat (d :: ds) + digitVal c) % 10 =
          digitVal c := by omega
      rw [hdiv, hmod, ihl hvl, digitChar_digitVal h09]

/-! ## Lemmas about the author matchers -/

theorem mtch_bind_apply {α β : Type} (m : Mtch α) (f : α → Mtch β)
    (l : List Char) :
    (m >>= f) l = (m l).flatMap (fun p => f p.1 p.2) := rfl

theorem isLu_eq_false_of_not_word {c : Char} (h : isWordChar c = false) :
    isLu c = false := by
  cases hl : isLu c
  · rfl
  · rw [isWordChar, hl] at h
    simp at h

theorem pLastName_cons_not_lu {c : Char} (cs : List Char)
    (h : isLu c = false) : pLastName (c :: cs) = [] := by
  have h1 : pChar isLu (c :: cs) = [] := by simp [pChar, h]
  unfold pLastName
  rw [mtch_bind_apply, h1]
  rfl

theorem pAuthorName_cons_not_word {c : Char} (cs : List Char)
    (h : isWordChar c = false) : pAuthorName (c :: cs) = [] := by
  unfold pAuthorName
  rw [mtch_bind_apply, pLastName_cons_not_lu cs (isLu_eq_false_of_not_word h)]
  rfl

theorem oneAuthorM_cons_not_word {c : Char} (cs : List Char)
    (h : isWordChar c = false) : oneAuthorM (c :: cs) = none := by
  unfold oneAuthorM
  rw [mtch_bind_apply, pAuthorName_cons_not_word cs h]
  rfl

theorem multiAuthorM_cons_not_word {c : Char} (cs : List Char)
    (h : isWordChar c = false) : multiAuthorM (c :: cs) = none := by
  unfold multiAuthorM
  rw [mtch_bind_apply, pAuthorName_cons_not_word cs h]
  rfl

/-- A successful dash match forces a non-word first character, which is
what keeps the higher-priority author patterns from matching. -/
theorem dashM_head {l tail : List Char} (h : dashM l = some tail) :
    ∃ c cs, l = c :: cs ∧ isWordChar c = false := by
  unfold dashM at h
  cases l with
  | nil => simp at h
  | cons c cs =>
      by_cases hw : isWordChar c
      · simp [List.takeWhile_cons, hw] at h
      · exact ⟨c, cs, rfl, by simp [hw]⟩

/-- The dash branch of extract_author: the two author-name patterns cannot
match a text whose dash pattern matches, so the chain reaches hasdash and
the carried-over designation decides the author. -/
theorem extract_author_dash (num txt : String) (prev : Option String)
    (tail : List Char) (h : dashM txt.toList = some tail) :
    extract_author num txt prev =
      .ok (dashAuthor prev, (num, dashAuthor prev, String.mk tail)) := by
  obtain ⟨c, cs, hl, hw⟩ := dashM_head h
  have hm : multiAuthorM txt.toList = none := by
    rw [hl]; exact multiAuthorM_cons_not_word cs hw
  have ho : oneAuthorM txt.toList = none := by
    rw [hl]; exact oneAuthorM_cons_not_word cs hw
  unfold extract_author
  simp only [hm, ho, h]

/-- If some segment of a split author list has no single-author match,
fmtSegs raises the ValueError naming the first such segment. -/
theorem fmtSegs_error (segs : List (List Char))
    (hbad : ∃ seg ∈ segs, anMatch seg = none) :
    ∃ seg ∈ segs, anMatch seg = none ∧
      fmtSegs segs =
        .error ("Unrecognized author in an author list: " ++ String.mk seg) := by
  induction segs with
  | nil =>
      obtain ⟨seg, hm, _⟩ := hbad
      cases hm
  | cons s rest ih =>
      by_cases hs : anMatch s = none
      · refine ⟨s, List.mem_cons_self s rest, hs, ?_⟩
        simp [fmtSegs, hs]
      · obtain ⟨seg, hm, hb⟩ := hbad
        have hr : seg ∈ rest := by
          rcases List.mem_cons.mp hm with h1 | h1
          · exact absurd (h1 ▸ hb) hs
          · exact h1
        obtain ⟨seg2, hm2, hb2, he2⟩ := ih ⟨seg, hr, hb⟩
        refine ⟨seg2, List.mem_cons_of_mem s hm2, hb2, ?_⟩
        unfold fmtSegs
        cases ha : anMatch s with
        | none => exact absurd ha hs
        | some cap => rw [he2]

/-! ## Lemmas about the record assembler -/

theorem suffix_rank_le (s : Suffix) : s.rank ≤ 2 := by
  cases s <;> decide

/-- A collapsed difference of at least 2 forces the num > itemno branch,
whether itemno is an int or a BibItem (the tuple order agrees with the
collapsed order here because a suffix rank is at most 2). -/
theorem numGt_of_two_le {b : BibItem} {i : ItemNo}
    (h : 2 ≤ (b.collapsed : Int) - (i.collapsed : Int)) :
    numGt (some b) i = true := by
  cases i with
  | pint n =>
      simp only [numGt, ItemNo.collapsed] at h ⊢
      simp only [decide_eq_true_eq]
      omega
  | bib c =>
      simp only [numGt, ItemNo.collapsed, BibItem.collapsed] at h ⊢
      have hb := suffix_rank_le b.suffix
      have hc := suffix_rank_le c.suffix
      simp only [BibItem.pyLt, Bool.or_eq_true, Bool.and_eq_true,
        decide_eq_true_eq, beq_iff_eq]
      omega

theorem numGt_self_false (c : BibItem) : numGt (some c) (.bib c) = false := by
  simp [numGt, BibItem.pyLt]

theorem numLt_self_false (c : BibItem) : numLt (some c) (.bib c) = false := by
  simp [numLt, BibItem.pyLt]

/-- The gap branch (1 < num - itemno <= k): emit the open record, then one
MISSING record for every intermediate collapsed value, then open the new
record with the line's text. -/
theorem step_gap (k : Nat) (st : AsmState) (b : BibItem) (txt : String)
    (h1 : 1 < (b.collapsed : Int) - (st.itemno.collapsed : Int))
    (h2 : (b.collapsed : Int) - (st.itemno.collapsed : Int) ≤ (k : Int)) :
    step k st (some b, txt) =
      (⟨.bib b, [txt]⟩,
        (st.itemno.toRecNum, st.stack) ::
          (List.range' (st.itemno.collapsed + 1)
            (b.collapsed - (st.itemno.collapsed + 1))).map
              (fun m => (RecNum.pint m, ["MISSING"]))) := by
  have hgt : numGt (some b) st.itemno = true := numGt_of_two_le (by omega)
  have hne : ¬(((b.collapsed : Int) - (st.itemno.collapsed : Int)) = 1) := by
    omega
  have hnk : ¬((k : Int) < (b.collapsed : Int) - (st.itemno.collapsed : Int)) := by
    omega
  unfold step
  simp only [numCollapsed, hgt, if_true, hne, if_false, hnk, numToItemNo,
    missingRecs]

/-- The large-jump branch (num - itemno > k): append "num. txt" to the
stack and change nothing else. -/
theorem step_absorb (k : Nat) (st : AsmState) (b : BibItem) (txt : String)
    (hk : 1 ≤ k)
    (h : (k : Int) < (b.collapsed : Int) - (st.itemno.collapsed : Int)) :
    step k st (some b, txt) =
      (⟨st.itemno, st.stack ++ [b.render ++ ". " ++ txt]⟩, []) := by
  have hgt : numGt (some b) st.itemno = true := numGt_of_two_le (by omega)
  have hne : ¬(((b.collapsed : Int) - (st.itemno.collapsed : Int)) = 1) := by
    omega
  unfold step
  simp only [numCollapsed, hgt, if_true, hne, if_false, h, numRender]

/-- A line whose number equals the open BibItem exactly (same main number
and same suffix) satisfies none of the three branch guards: the line is
dropped without a trace. -/
theorem step_equal_drop (k : Nat) (st : AsmState) (c : BibItem) (txt : String)
    (hop : st.itemno = .bib c) :
    step k st (some c, txt) = (st, []) := by
  have hg : numGt (some c) st.itemno = false := by
    rw [hop]; exact numGt_self_false c
  have hl : numLt (some c) st.itemno = false := by
    rw [hop]; exact numLt_self_false c
  have hb : (numEq0 (some c) && itemnoPos st.itemno) = false := by
    rw [hop]
    simp only [numEq0, itemnoPos, Bool.and_eq_false_iff]
    by_cases h0 : c.collapsed = 0
    · right; simp [h0]
    · left; simp [h0]
  unfold step
  simp only [hg, hb, hl, if_false, Bool.false_eq_true]

/-- The initial state ignores an unnumbered line entirely (no entry open
yet, nothing to attach the text to). -/
theorem step_none_initial (k : Nat) (txt : String) :
    step k ⟨.pint 0, []⟩ (none, txt) = (⟨.pint 0, []⟩, []) := rfl

theorem runAsm_all_none (k : Nat) (lines : List (NumVal × String))
    (h : ∀ p ∈ lines, p.1 = none) :
    runAsm k ⟨.pint 0, []⟩ lines =
      [(RecNum.pstr (ItemNo.pyStr (.pint 0)), [])] := by
  induction lines with
  | nil => rfl
  | cons p ps ih =>
      obtain ⟨n1, t1⟩ := p
      have hp : n1 = none := h (n1, t1) (List.mem_cons_self _ _)
      subst hp
      unfold runAsm
      rw [step_none_initial]
      exact ih (fun q hq => h q (List.mem_cons_of_mem _ hq))

/-! ## Parse/render round trip for number tokens -/

theorem takeWhile_all_self (p : Char → Bool) (l : List Char) :
    (l.takeWhile p).all p = true := by
  induction l with
  | nil => rfl
  | cons c cs ih =>
      by_cases hc : p c
      · simp [List.takeWhile_cons, hc, ih]
      · simp [List.takeWhile_cons, hc]

theorem dollarEnd_eq_true_iff (l : List Char) :
    dollarEnd l = true ↔ l = [] ∨ l = ['\n'] := by
  cases l with
  | nil => simp [dollarEnd]
  | cons c cs =>
      cases cs with
      | nil => simp [dollarEnd]
      | cons d ds => simp [dollarEnd]

theorem dropWhile_takeWhile_nil (p : Char → Bool) (l : List Char) :
    (l.takeWhile p).dropWhile p = [] := by
  induction l with
  | nil => rfl
  | cons c cs ih =>
      by_cases hc : p c
      · simp [List.takeWhile_cons, List.dropWhile_cons, hc, ih]
      · simp [List.takeWhile_cons, hc]

theorem takeWhile_all_append (p : Char → Bool) (l1 l2 : List Char)
    (h : l1.all p = true) :
    (l1 ++ l2).takeWhile p = l1 ++ l2.takeWhile p := by
  induction l1 with
  | nil => rfl
  | cons c cs ih =>
      simp only [List.all_cons, Bool.and_eq_true] at h
      simp [List.takeWhile_cons, h.1, ih h.2]

theorem dropWhile_all_append (p : Char → Bool) (l1 l2 : List Char)
    (h : l1.all p = true) :
    (l1 ++ l2).dropWhile p = l2.dropWhile p := by
  induction l1 with
  | nil => rfl
  | cons c cs ih =>
      simp only [List.all_cons, Bool.and_eq_true] at h
      simp [List.dropWhile_cons, h.1, ih h.2]

theorem suffixOfChar_facts {c : Char} {suf : Suffix}
    (h : suffixOfChar c = some suf) :
    isDigit09 c = false ∧ (c == '\n') = false := by
  unfold suffixOfChar at h
  by_cases h1 : c = 'a'
  · subst h1; exact ⟨by decide, by decide⟩
  · rw [if_neg h1] at h
    by_cases h2 : c = 'а'
    · subst h2; exact ⟨by decide, by decide⟩
    · rw [if_neg h2] at h
      by_cases h3 : c = 'б'
      · subst h3; exact ⟨by decide, by decide⟩
      · rw [if_neg h3] at h; cases h

/-- One unfolding of the parser on a token starting with a nonzero digit. -/
theorem parseBibItemL_cons (c : Char) (cs : List Char)
    (h19 : isDigit19 c = true) :
    parseBibItemL (c :: cs) =
      (if dollarEnd (cs.dropWhile isDigit09) then
        some ⟨digitsToNat (c :: cs.takeWhile isDigit09), .plain⟩
      else
        match cs.dropWhile isDigit09 with
        | [] => none
        | c2 :: rest2 =>
            match suffixOfChar c2 with
            | some suf =>
                if dollarEnd rest2 then
                  some ⟨digitsToNat (c :: cs.takeWhile isDigit09), suf⟩
                else none
            | none => none) := by
  simp only [parseBibItemL, h19, if_true]

theorem parse_render_valid_list (l : List Char) (hv : validTokenL l = true) :
    ∃ b, parseBibItemL l = some b ∧ b.renderChars = l := by
  cases l with
  | nil => exact Bool.noConfusion hv
  | cons c cs =>
      simp only [validTokenL, Bool.and_eq_true, Bool.or_eq_true,
        beq_iff_eq] at hv
      obtain ⟨h19, hrest⟩ := hv
      have hsplit : cs.takeWhile isDigit09 ++ cs.dropWhile isDigit09 = cs :=
        List.takeWhile_append_dropWhile isDigit09 cs
      have hvd : validDigits (c :: cs.takeWhile isDigit09) = true := by
        simp [validDigits, h19, takeWhile_all_self]
      have hnum : natToDigits (digitsToNat (c :: cs.takeWhile isDigit09)) =
          c :: cs.takeWhile isDigit09 := natToDigits_digitsToNat hvd
      rcases hrest with (hr | hr) | hr
      · refine ⟨⟨digitsToNat (c :: cs.takeWhile isDigit09), .plain⟩, ?_, ?_⟩
        · rw [parseBibItemL_cons c cs h19, hr]
          rfl
        · unfold BibItem.renderChars Suffix.renderChars
          rw [hnum, List.append_nil]
          have hcs : cs.takeWhile isDigit09 = cs := by
            rw [hr, List.append_nil] at hsplit
            exact hsplit
          rw [hcs]
      · refine ⟨⟨digitsToNat (c :: cs.takeWhile isDigit09), .ins1⟩, ?_, ?_⟩
        · rw [parseBibItemL_cons c cs h19, hr]
          rfl
        · unfold BibItem.renderChars Suffix.renderChars
          rw [hnum]
          show (c :: cs.takeWhile isDigit09) ++ ['а'] = c :: cs
          rw [List.cons_append, ← hr, hsplit]
      · refine ⟨⟨digitsToNat (c :: cs.takeWhile isDigit09), .ins2⟩, ?_, ?_⟩
        · rw [parseBibItemL_cons c cs h19, hr]
          rfl
        · unfold BibItem.renderChars Suffix.renderChars
          rw [hnum]
          show (c :: cs.takeWhile isDigit09) ++ ['б'] = c :: cs
          rw [List.cons_append, ← hr, hsplit]

theorem parse_latinA_list (l : List Char) (hla : latinATokenL l = true) :
    ∃ b, parseBibItemL l = some b ∧ b.suffix = .ins1 ∧
      b.renderChars = l.dropLast ++ ['а'] := by
  cases l with
  | nil => exact Bool.noConfusion hla
  | cons c cs =>
      simp only [latinATokenL, Bool.and_eq_true, beq_iff_eq] at hla
      obtain ⟨h19, hr⟩ := hla
      have hsplit : cs.takeWhile isDigit09 ++ cs.dropWhile isDigit09 = cs :=
        List.takeWhile_append_dropWhile isDigit09 cs
      have hvd : validDigits (c :: cs.takeWhile isDigit09) = true := by
        simp [validDigits, h19, takeWhile_all_self]
      refine ⟨⟨digitsToNat (c :: cs.takeWhile isDigit09), .ins1⟩, ?_, rfl, ?_⟩
      · rw [parseBibItemL_cons c cs h19, hr]
        rfl
      · unfold BibItem.renderChars Suffix.renderChars
        rw [natToDigits_digitsToNat hvd]
        have hcs : c :: cs = (c :: cs.takeWhile isDigit09) ++ ['a'] := by
          rw [List.cons_append, ← hr, hsplit]
        rw [hcs, List.dropLast_concat]

/-- The '$' anchor ignores a single trailing newline: appending one to an
accepted newline-free token leaves the parse unchanged. -/
theorem parse_append_newline_suffix (c : Char) (cs : List Char) (c2 : Char)
    (suf : Suffix) (h19 : isDigit19 c = true)
    (hr : cs.dropWhile isDigit09 = [c2]) (hs : suffixOfChar c2 = some suf) :
    parseBibItemL ((c :: cs) ++ ['\n']) = parseBibItemL (c :: cs) := by
  obtain ⟨hnd, hnl⟩ := suffixOfChar_facts hs
  have hsplit : cs.takeWhile isDigit09 ++ cs.dropWhile isDigit09 = cs :=
    List.takeWhile_append_dropWhile isDigit09 cs
  have hall : (cs.takeWhile isDigit09).all isDigit09 = true :=
    takeWhile_all_self isDigit09 cs
  have hcs : cs = cs.takeWhile isDigit09 ++ [c2] := by rw [← hr, hsplit]
  have ht : (cs ++ ['\n']).takeWhile isDigit09 = cs.takeWhile isDigit09 := by
    conv_lhs => rw [hcs]
    rw [List.append_assoc, takeWhile_all_append isDigit09 _ _ hall]
    simp [List.takeWhile_cons, hnd]
  have hd : (cs ++ ['\n']).dropWhile isDigit09 = [c2, '\n'] := by
    conv_lhs => rw [hcs]
    rw [List.append_assoc, dropWhile_all_append isDigit09 _ _ hall]
    simp [List.dropWhile_cons, hnd]
  show parseBibItemL (c :: (cs ++ ['\n'])) = parseBibItemL (c :: cs)
  rw [parseBibItemL_cons c (cs ++ ['\n']) h19, parseBibItemL_cons c cs h19,
    ht, hd, hr]
  have hL : ¬ dollarEnd [c2, '\n'] = true := by simp [dollarEnd]
  have hR : ¬ dollarEnd [c2] = true := by simp [dollarEnd, hnl]
  rw [if_neg hL, if_neg hR]
  simp only [hs]
  rfl

theorem parse_append_newline (l : List Char)
    (h : (validTokenL l || latinATokenL l) = true) :
    parseBibItemL (l ++ ['\n']) = parseBibItemL l := by
  cases l with
  | nil => exact Bool.noConfusion h
  | cons c cs =>
      simp only [validTokenL, latinATokenL, Bool.or_eq_true, Bool.and_eq_true,
        beq_iff_eq] at h
      have h19 : isDigit19 c = true := by
        rcases h with ⟨h19, _⟩ | ⟨h19, _⟩ <;> exact h19
      have hrest : cs.dropWhile isDigit09 = [] ∨
          cs.dropWhile isDigit09 = ['а'] ∨ cs.dropWhile isDigit09 = ['б'] ∨
          cs.dropWhile isDigit09 = ['a'] := by
        rcases h with ⟨_, (h1 | h1) | h1⟩ | ⟨_, h1⟩
        · exact Or.inl h1
        · exact Or.inr (Or.inl h1)
        · exact Or.inr (Or.inr (Or.inl h1))
        · exact Or.inr (Or.inr (Or.inr h1))
      rcases hrest with hr | hr | hr | hr
      · have hsplit : cs.takeWhile isDigit09 ++ cs.dropWhile isDigit09 = cs :=
          List.takeWhile_append_dropWhile isDigit09 cs
        have hcs : cs.takeWhile isDigit09 = cs := by
          rw [hr, List.append_nil] at hsplit
          exact hsplit
        have hallcs : cs.all isDigit09 = true := by
          rw [← hcs]
          exact takeWhile_all_self isDigit09 cs
        have hnld : isDigit09 '\n' = false := by decide
        have ht : (cs ++ ['\n']).takeWhile isDigit09 = cs := by
          rw [takeWhile_all_append isDigit09 _ _ hallcs]
          simp [List.takeWhile_cons, hnld]
        have hd : (cs ++ ['\n']).dropWhile isDigit09 = ['\n'] := by
          rw [dropWhile_all_append isDigit09 _ _ hallcs]
          simp [List.dropWhile_cons, hnld]
        show parseBibItemL (c :: (cs ++ ['\n'])) = parseBibItemL (c :: cs)
        rw [parseBibItemL_cons c (cs ++ ['\n']) h19, parseBibItemL_cons c cs h19,
          ht, hd, hr, hcs]
        rfl
      · exact parse_append_newline_suffix c cs 'а' .ins1 h19 hr (by decide)
      · exact parse_append_newline_suffix c cs 'б' .ins2 h19 hr (by decide)
      · exact parse_append_newline_suffix c cs 'a' .ins1 h19 hr (by decide)

theorem parse_none_not_accepted (l : List Char)
    (h : acceptedTokenL l = false) : parseBibItemL l = none := by
  cases l with
  | nil => rfl
  | cons c cs =>
      by_cases h19 : isDigit19 c = true
      · rw [acceptedTokenL] at h
        simp only [Bool.or_eq_false_iff] at h
        obtain ⟨⟨hA, hB⟩, hC⟩ := h
        have hsplit : cs.takeWhile isDigit09 ++ cs.dropWhile isDigit09 = cs :=
          List.takeWhile_append_dropWhile isDigit09 cs
        rw [parseBibItemL_cons c cs h19]
        by_cases hde : dollarEnd (cs.dropWhile isDigit09) = true
        · exfalso
          rcases (dollarEnd_eq_true_iff _).mp hde with hr | hr
          · simp [validTokenL, h19, hr] at hA
          · have hl2 : c :: cs = (c :: cs.takeWhile isDigit09) ++ ['\n'] := by
              rw [List.cons_append, ← hr, hsplit]
            have hgl : (c :: cs).getLast? = some '\n' := by
              rw [hl2]
              exact List.getLast?_concat _
            have hvd : validTokenL ((c :: cs).dropLast) = true := by
              rw [hl2, List.dropLast_concat]
              simp [validTokenL, h19, dropWhile_takeWhile_nil]
            rw [hvd] at hC
            simp [hgl] at hC
        · rw [if_neg hde]
          cases hr : cs.dropWhile isDigit09 with
          | nil =>
              exfalso
              rw [hr] at hde
              exact hde rfl
          | cons c2 rest2 =>
              cases hs : suffixOfChar c2 with
              | none => simp only [hs]
              | some suf =>
                  simp only [hs]
                  by_cases hde2 : dollarEnd rest2 = true
                  · exfalso
                    obtain ⟨hnd, hnl⟩ := suffixOfChar_facts hs
                    rcases (dollarEnd_eq_true_iff _).mp hde2 with hr2 | hr2
                    · subst hr2
                      unfold suffixOfChar at hs
                      by_cases ha : c2 = 'a'
                      · subst ha
                        simp [latinATokenL, h19, hr] at hB
                      · rw [if_neg ha] at hs
                        by_cases hca : c2 = 'а'
                        · subst hca
                          simp [validTokenL, h19, hr] at hA
                        · rw [if_neg hca] at hs
                          by_cases hcb : c2 = 'б'
                          · subst hcb
                            simp [validTokenL, h19, hr] at hA
                          · rw [if_neg hcb] at hs
                            cases hs
                    · subst hr2
                      have hl2 : c :: cs =
                          ((c :: cs.takeWhile isDigit09) ++ [c2]) ++ ['\n'] := by
                        simp only [List.append_assoc, List.cons_append,
                          List.nil_append]
                        rw [← hr, hsplit]
                      have hgl : (c :: cs).getLast? = some '\n' := by
                        rw [hl2]
                        exact List.getLast?_concat _
                      have hdl : (c :: cs).dropLast =
                          c :: (cs.takeWhile isDigit09 ++ [c2]) := by
                        rw [hl2, List.dropLast_concat, List.cons_append]
                      have hdw : (cs.takeWhile isDigit09 ++ [c2]).dropWhile
                          isDigit09 = [c2] := by
                        rw [dropWhile_all_append isDigit09 _ _
                          (takeWhile_all_self isDigit09 cs)]
                        simp [List.dropWhile_cons, hnd]
                      have hshape : (validTokenL ((c :: cs).dropLast) ||
                          latinATokenL ((c :: cs).dropLast)) = true := by
                        rw [hdl]
                        unfold suffixOfChar at hs
                        by_cases ha : c2 = 'a'
                        · subst ha
                          simp [validTokenL, latinATokenL, h19, hdw]
                        · rw [if_neg ha] at hs
                          by_cases hca : c2 = 'а'
                          · subst hca
                            simp [validTokenL, h19, hdw]
                          · rw [if_neg hca] at hs
                            by_cases hcb : c2 = 'б'
                            · subst hcb
                              simp [validTokenL, h19, hdw]
                            · rw [if_neg hcb] at hs
                              cases hs
                      rw [hshape] at hC
                      simp [hgl] at hC
                  · rw [if_neg hde2]
      · simp [parseBibItemL, h19]

/-! ## Claim theorems -/

/-- Claim C1: in the gap branch (1 < n - current <= k) the assembler emits
the open record (current, pending), then one synthesized (m, ["MISSING"])
record for every intermediate collapsed value current < m < n in increasing
order, and finally opens the record for n with the line's text; in
particular the numbered lines 1, 2, 5 yield records 1 and 2 with their own
text, missing markers for 3 and 4, then a record for 5. -/
theorem C1_gap_markers :
    (∀ (k : Nat) (st : AsmState) (b : BibItem) (txt : String),
      1 < (b.collapsed : Int) - (st.itemno.collapsed : Int) →
      (b.collapsed : Int) - (st.itemno.collapsed : Int) ≤ (k : Int) →
      step k st (some b, txt) =
        (⟨.bib b, [txt]⟩,
          (st.itemno.toRecNum, st.stack) ::
            (List.range' (st.itemno.collapsed + 1)
              (b.collapsed - (st.itemno.collapsed + 1))).map
                (fun m => (RecNum.pint m, ["MISSING"])))) ∧
    iter_records 10 [(some ("1"), "a"), (some ("2"), "b"), (some ("5"), "c")] =
      some [(RecNum.bib ⟨1, .plain⟩, ["a"]), (RecNum.bib ⟨2, .plain⟩, ["b"]),
        (RecNum.pint 3, ["MISSING"]), (RecNum.pint 4, ["MISSING"]),
        (RecNum.pstr ("5"), ["c"])] :=
  ⟨step_gap, by decide⟩

theorem C1_gap_markers_witness :
    (1 < (BibItem.collapsed ⟨5, .plain⟩ : Int) -
      (ItemNo.collapsed (.bib ⟨2, .plain⟩) : Int)) ∧
    ((BibItem.collapsed ⟨5, .plain⟩ : Int) -
      (ItemNo.collapsed (.bib ⟨2, .plain⟩) : Int) ≤ ((10 : Nat) : Int)) ∧
    step 10 ⟨.bib ⟨2, .plain⟩, ["b"]⟩ (some ⟨5, .plain⟩, "c") =
      (⟨.bib ⟨5, .plain⟩, ["c"]⟩,
        [(RecNum.bib ⟨2, .plain⟩, ["b"]), (RecNum.pint 3, ["MISSING"]),
          (RecNum.pint 4, ["MISSING"])]) :=
  ⟨by decide, by decide, by
    have h := C1_gap_markers.1 10 ⟨.bib ⟨2, .plain⟩, ["b"]⟩ ⟨5, .plain⟩ "c"
      (by decide) (by decide)
    exact h.trans (by decide)⟩

/-- Claim C2: with an open record and a detected number exceeding current
by strictly more than the tolerance k (a positive tolerance, 10 by
default), the assembler appends the literal reconstruction "n. txt" to the
pending fragments and leaves all other state unchanged; e.g. after numbers
1 and 2 a line numbered 2000 is absorbed as continuation text of
record 2. -/
theorem C2_absorb_large_jump :
    (∀ (k : Nat) (st : AsmState) (c b : BibItem) (txt : String),
      1 ≤ k → st.itemno = .bib c →
      (k : Int) < (b.collapsed : Int) - (st.itemno.collapsed : Int) →
      step k st (some b, txt) =
        (⟨st.itemno, st.stack ++ [b.render ++ ". " ++ txt]⟩, [])) ∧
    iter_records 10 [(some ("1"), "a"), (some ("2"), "b"),
        (some ("2000"), "c")] =
      some [(RecNum.bib ⟨1, .plain⟩, ["a"]),
        (RecNum.pstr ("2"), ["b", "2000. c"])] :=
  ⟨fun k st c b txt hk _ h => step_absorb k st b txt hk h, by decide⟩

theorem C2_absorb_large_jump_witness :
    1 ≤ 10 ∧
    (AsmState.mk (.bib ⟨2, .plain⟩) ["b"]).itemno = .bib ⟨2, .plain⟩ ∧
    (((10 : Nat) : Int) < (BibItem.collapsed ⟨2000, .plain⟩ : Int) -
      (ItemNo.collapsed (.bib ⟨2, .plain⟩) : Int)) ∧
    step 10 ⟨.bib ⟨2, .plain⟩, ["b"]⟩ (some ⟨2000, .plain⟩, "c") =
      (⟨.bib ⟨2, .plain⟩, ["b", "2000. c"]⟩, []) :=
  ⟨by decide, rfl, by decide, by
    have h := C2_absorb_large_jump.1 10 ⟨.bib ⟨2, .plain⟩, ["b"]⟩ ⟨2, .plain⟩
      ⟨2000, .plain⟩ "c" (by decide) rfl (by decide)
    exact h.trans (by decide)⟩

/-- Claim C3 counterexample: a line carrying exactly the open record's
number satisfies none of the branch guards and is dropped without a trace:
the state is unchanged, nothing is emitted, and the pending fragments do
not receive the literal reprint "1. b" the claim requires; end to end, the
text of the second line numbered 1 is lost. -/
theorem C3_cx :
    step 10 ⟨.bib ⟨1, .plain⟩, ["a"]⟩ (some ⟨1, .plain⟩, "b") =
      (⟨.bib ⟨1, .plain⟩, ["a"]⟩, []) ∧
    (step 10 ⟨.bib ⟨1, .plain⟩, ["a"]⟩ (some ⟨1, .plain⟩, "b")).1.stack ≠
      ["a", "1. b"] ∧
    iter_records 10 [(some ("1"), "a"), (some ("1"), "b")] =
      some [(RecNum.pstr ("1"), ["a"])] := by decide

/-- Claim C3 amended: a classified line whose detected number equals the
currently open record's number (same main number and same suffix) is
ignored completely: the assembler's state is unchanged, no record is
emitted, and the line's text is lost. -/
theorem C3_amended_equal_dropped (k : Nat) (st : AsmState) (c : BibItem)
    (txt : String) (hop : st.itemno = .bib c) :
    step k st (some c, txt) = (st, []) :=
  step_equal_drop k st c txt hop

theorem C3_amended_equal_dropped_witness :
    (AsmState.mk (.bib ⟨1, .plain⟩) ["a"]).itemno = .bib ⟨1, .plain⟩ ∧
    step 10 ⟨.bib ⟨1, .plain⟩, ["a"]⟩ (some ⟨1, .plain⟩, "b") =
      (⟨.bib ⟨1, .plain⟩, ["a"]⟩, []) :=
  ⟨rfl, C3_amended_equal_dropped 10 ⟨.bib ⟨1, .plain⟩, ["a"]⟩ ⟨1, .plain⟩
    "b" rfl⟩

/-- Claim C4 counterexample: an input consisting of one line with no
detected number yields the single record ("0", []) with an EMPTY fragment
list: unnumbered lines seen before any entry is open are dropped, so the
output does not contain the input lines, contrary to the claim. -/
theorem C4_cx :
    iter_records 10 [(none, "hello")] = some [(RecNum.pstr ("0"), [])] ∧
    ¬ iter_records 10 [(none, "hello")] =
        some [(RecNum.pstr ("0"), ["hello"])] := by decide

/-- Claim C4 amended: for every non-empty input in which no line carries a
detected number, the assembler emits exactly one record, numbered with the
zero sentinel "0", whose fragment list is empty: every such line is
dropped because no entry is open to attach it to. -/
theorem C4_amended_zero_record (k : Nat) (lines : List (NumVal × String))
    (_hne : lines ≠ []) (h : ∀ p ∈ lines, p.1 = none) :
    iterRecordsParsed k lines = [(RecNum.pstr ("0"), [])] := by
  unfold iterRecordsParsed
  rw [runAsm_all_none k lines h]
  rfl

theorem C4_amended_zero_record_witness :
    ([((none : NumVal), "hello")] ≠ []) ∧
    (∀ p ∈ [((none : NumVal), "hello")], p.1 = (none : NumVal)) ∧
    iterRecordsParsed 10 [(none, "hello")] = [(RecNum.pstr ("0"), [])] :=
  ⟨by decide, by decide,
    C4_amended_zero_record 10 [(none, "hello")] (by decide) (by decide)⟩

/-- Claim C5 counterexample: the token "01" consists of one or more digits
(the claimed valid shape) yet fails to parse, and the token "1a" (digits
followed by the Latin letter "a", which is not one of the two insertion
markers) is not of the claimed shape yet parses successfully, and rendering
the parse result gives "1а" with the Cyrillic marker, not the original
token. -/
theorem C5_cx :
    claimValidToken ("01") = true ∧ parseBibItem ("01") = none ∧
    claimValidToken ("1a") = false ∧
    parseBibItem ("1a") = some ⟨1, .ins1⟩ ∧
    BibItem.render ⟨1, .ins1⟩ ≠ "1a" := by decide

/-- Claim C5 amended: a valid token is a nonzero digit followed by digits,
optionally followed by one of the two Cyrillic insertion markers "а" and
"б"; parsing such a token and rendering the result reproduces the token
exactly.  Two further shapes are accepted: a token of digits followed by
the Latin letter "a" parses (as the first-insertion marker) and renders
with the Cyrillic marker in place of the Latin one, and a single trailing
newline after any accepted token is ignored by the pattern's end anchor,
leaving the parse unchanged.  Parsing any other token fails. -/
theorem C5_amended_roundtrip :
    (∀ s : String, validToken s = true →
      ∃ b, parseBibItem s = some b ∧ b.render = s) ∧
    (∀ s : String, latinAToken s = true →
      ∃ b, parseBibItem s = some b ∧ b.suffix = .ins1 ∧
        b.renderChars = s.toList.dropLast ++ ['а']) ∧
    (∀ l : List Char, (validTokenL l || latinATokenL l) = true →
      parseBibItemL (l ++ ['\n']) = parseBibItemL l) ∧
    (∀ s : String, acceptedToken s = false → parseBibItem s = none) := by
  refine ⟨?_, ?_, ?_, ?_⟩
  · intro s hv
    obtain ⟨b, hb, hr⟩ := parse_render_valid_list s.toList hv
    refine ⟨b, hb, ?_⟩
    unfold BibItem.render
    rw [hr]
    rfl
  · intro s hla
    exact parse_latinA_list s.toList hla
  · exact parse_append_newline
  · intro s hacc
    exact parse_none_not_accepted s.toList hacc

theorem C5_amended_roundtrip_witness :
    validToken ("12а") = true ∧
    (∃ b, parseBibItem ("12а") = some b ∧ BibItem.render b = "12а") :=
  ⟨by decide, C5_amended_roundtrip.1 ("12а") (by decide)⟩

/-- Claim C6 counterexample: comparison of two sequence numbers is the
lexicographic tuple comparison, not the comparison of the collapsed
integers: 2-with-second-suffix (collapsed 4) is reported smaller than
3-with-no-suffix (collapsed 3), while 4 < 3 is false for the plain
integers. -/
theorem C6_cx :
    BibItem.pyLt ⟨2, .ins2⟩ ⟨3, .plain⟩ = true ∧
    ¬ (BibItem.collapsed ⟨2, .ins2⟩ < BibItem.collapsed ⟨3, .plain⟩) := by
  decide

/-- Claim C6 amended: combining two sequence numbers with + or - yields
exactly the integer result on main + suffix-rank, but the comparisons
compare the pairs (main, suffix-rank) lexicographically; they agree with
the collapsed-integer comparisons whenever the two suffix ranks are equal
(and can differ otherwise, as the counterexample shows). -/
theorem C6_amended_arithmetic (a b : BibItem) :
    BibItem.pyAdd a b = a.collapsed + b.collapsed ∧
    BibItem.pySub a b = (a.collapsed : Int) - (b.collapsed : Int) ∧
    (a.suffix = b.suffix →
      ((BibItem.pyEq a b = true ↔ a.collapsed = b.collapsed) ∧
       (BibItem.pyLt a b = true ↔ a.collapsed < b.collapsed) ∧
       (BibItem.pyGtB a b = true ↔ b.collapsed < a.collapsed))) := by
  refine ⟨?_, rfl, ?_⟩
  · unfold BibItem.pyAdd BibItem.collapsed
    omega
  · intro hs
    have hr : a.suffix.rank = b.suffix.rank := by rw [hs]
    have h1 : BibItem.pyEq a b = true ↔
        (a.num = b.num ∧ a.suffix.rank = b.suffix.rank) := by
      simp [BibItem.pyEq]
    have h2 : BibItem.pyLt a b = true ↔
        (a.num < b.num ∨ (a.num = b.num ∧ a.suffix.rank < b.suffix.rank)) := by
      simp [BibItem.pyLt]
    have h3 : BibItem.pyGtB a b = true ↔
        (b.num < a.num ∨ (b.num = a.num ∧ b.suffix.rank < a.suffix.rank)) := by
      simp [BibItem.pyGtB, BibItem.pyLt]
    rw [h1, h2, h3]
    unfold BibItem.collapsed
    omega

theorem C6_amended_arithmetic_witness :
    (⟨1, .plain⟩ : BibItem).suffix = (⟨2, .plain⟩ : BibItem).suffix ∧
    (BibItem.pyLt ⟨1, .plain⟩ ⟨2, .plain⟩ = true ↔
      BibItem.collapsed ⟨1, .plain⟩ < BibItem.collapsed ⟨2, .plain⟩) :=
  ⟨rfl, ((C6_amended_arithmetic ⟨1, .plain⟩ ⟨2, .plain⟩).2.2 rfl).2.1⟩

/-- Claim C7: on a record text whose leading punctuation run contains the
long dash (so the dash pattern matches and neither author-name pattern
can), the author is the previous designation carried over, except that a
missing previous designation or the "NOAUTHOR" sentinel yields the
inconsistency sentinel "ERRAUTHOR"; the dash and its surrounding
punctuation are stripped from the remainder (the tail starts at the first
word character). -/
theorem C7_dash_inherit (num txt : String) (prev : Option String)
    (tail : List Char) (h : dashM txt.toList = some tail) :
    extract_author num txt prev =
      .ok (dashAuthor prev, (num, dashAuthor prev, String.mk tail)) ∧
    dashAuthor none = "ERRAUTHOR" ∧
    dashAuthor (some ("NOAUTHOR")) = "ERRAUTHOR" ∧
    (∀ p : String, p ≠ "NOAUTHOR" → dashAuthor (some p) = p) ∧
    tail = txt.toList.dropWhile (fun c => ! isWordChar c) := by
  refine ⟨extract_author_dash num txt prev tail h, rfl, by decide, ?_, ?_⟩
  · intro p hp
    simp [dashAuthor, hp]
  · unfold dashM at h
    by_cases hc : (txt.toList.takeWhile (fun c => ! isWordChar c)).contains '—'
    · rw [if_pos hc] at h
      exact (Option.some.inj h).symm
    · rw [if_neg hc] at h
      cases h

theorem C7_dash_inherit_witness :
    dashM (("— Сказки.").toList) = some (("Сказки.").toList) ∧
    extract_author ("7") ("— Сказки.") (some ("Иванов, И. И.")) =
      .ok ("Иванов, И. И.", ("7", "Иванов, И. И.", "Сказки.")) := by
  refine ⟨by decide, ?_⟩
  have h := (C7_dash_inherit ("7") ("— Сказки.") (some ("Иванов, И. И."))
    (("Сказки.").toList) (by decide)).1
  exact h.trans (congrArg Except.ok (by decide))

/-- Claim C8: the author grammar applied to "Иванов И. И. Труды." returns,
for any carried-over previous designation, the single-author rendering
"Иванов, И. И." (surname, initials) with remainder "Труды.". -/
theorem C8_single_author (num : String) (prev : Option String) :
    extract_author num ("Иванов И. И. Труды.") prev =
      .ok ("Иванов, И. И.", (num, "Иванов, И. И.", "Труды.")) := by
  have hm : multiAuthorM (("Иванов И. И. Труды.").toList) = none := by decide
  have ho : oneAuthorM (("Иванов И. И. Труды.").toList) =
      some (⟨("Иванов").toList, ("И. И.").toList, none⟩,
        ("Труды.").toList) := by decide
  unfold extract_author
  simp only [hm, ho, Except.ok.injEq, Prod.mk.injEq]
  refine ⟨by decide, trivial, by decide, by decide⟩

/-- Claim C9: whenever the multi-author pattern matches but one of the
segments obtained by splitting the matched span on the "и"/comma
separators has no single-author match, extract_author raises the fatal
ValueError naming the offending segment, never returning "NOAUTHOR". -/
theorem C9_multi_author_error (num txt : String) (prev : Option String)
    (allc tail : List Char)
    (hm : multiAuthorM txt.toList = some (allc, tail))
    (hbad : (splitSeps (withDot (String.mk allc)).toList).any
      (fun seg => (anMatch seg).isNone) = true) :
    ∃ seg ∈ splitSeps (withDot (String.mk allc)).toList,
      anMatch seg = none ∧
      extract_author num txt prev =
        .error ("Unrecognized author in an author list: " ++ String.mk seg) := by
  have hex : ∃ seg ∈ splitSeps (withDot (String.mk allc)).toList,
      anMatch seg = none := by
    simpa [List.any_eq_true, Option.isNone_iff_eq_none] using hbad
  obtain ⟨seg, hmem, hseg, herr⟩ := fmtSegs_error _ hex
  refine ⟨seg, hmem, hseg, ?_⟩
  unfold extract_author
  simp only [hm]
  unfold format_multi_authors
  rw [herr]

theorem C9_multi_author_error_witness :
    multiAuthorM (("Иванов И. И. и Гримм, братья. Труды.").toList) =
      some (("Иванов И. И. и Гримм, братья").toList, ("Труды.").toList) ∧
    ∃ seg ∈ splitSeps
        (withDot (String.mk (("Иванов И. И. и Гримм, братья").toList))).toList,
      anMatch seg = none ∧
      extract_author ("9") ("Иванов И. И. и Гримм, братья. Труды.") none =
        .error ("Unrecognized author in an author list: " ++ String.mk seg) :=
  ⟨by decide,
    C9_multi_author_error ("9") ("Иванов И. И. и Гримм, братья. Труды.") none
      (("Иванов И. И. и Гримм, братья").toList) (("Труды.").toList)
      (by decide) (by decide)⟩

/-- Claim C10: when the carried-over designation is the inconsistency
sentinel "ERRAUTHOR", every consecutive dash-continuation entry reuses
"ERRAUTHOR" unchanged and carries it forward, so the sentinel propagates
through the whole run of dash entries. -/
theorem C10_erra_propagates (txts : List String)
    (h : ∀ t ∈ txts, (dashM t.toList).isSome = true) :
    extractAuthorsChain (some ("ERRAUTHOR")) txts =
      .ok (txts.map (fun _ => "ERRAUTHOR")) := by
  induction txts with
  | nil => rfl
  | cons t ts ih =>
      have ht := h t (List.mem_cons_self t ts)
      obtain ⟨tl, htl⟩ := Option.isSome_iff_exists.mp ht
      have hstep := extract_author_dash ("") t (some ("ERRAUTHOR")) tl htl
      have hda : dashAuthor (some ("ERRAUTHOR")) = "ERRAUTHOR" := by decide
      rw [hda] at hstep
      unfold extractAuthorsChain
      rw [hstep]
      simp only [ih (fun q hq => h q (List.mem_cons_of_mem t hq)),
        List.map_cons]

theorem C10_erra_propagates_witness :
    (∀ t ∈ ["— Первая.", "— Вторая."], (dashM t.toList).isSome = true) ∧
    extractAuthorsChain (some ("ERRAUTHOR")) ["— Первая.", "— Вторая."] =
      .ok (["ERRAUTHOR", "ERRAUTHOR"]) :=
  ⟨by decide, by
    have h := C10_erra_propagates ["— Первая.", "— Вторая."] (by decide)
    exact h.trans (congrArg Except.ok (by decide))⟩

end SplitRecords
